import Mathlib

/-!
Verification of the `conan-tesseract` task scripts (`src/tasks/conan.py`,
`src/tasks/__init__.py`) against their natural-language specification.

The scripts drive an external package manager (Conan 1.x) and a native build
generator.  The shallow embedding below represents the script-side control
flow and data exactly as written in the Python source; the external API calls
(remote registry mutation, uploads, HTTP, file system) are represented either
as explicit state transformers over a registry modelled as an ordered list of
named remotes, or as events appended to a trace.  Python `with` blocks are
embedded as bracketing combinators that emit release events on both the
normal and the exceptional path, matching the context-manager protocol.
-/

namespace Tasks

/-! ## Constants (src/tasks/conan.py lines 22-28) -/

def DL_ARTIFACTORY : String := "http://artifactory.dlogics.com:8081/artifactory"

def UPLOAD_REMOTE : String := "conan-local"

def UPLOAD_DEPENDENCIES_REMOTE : String := "conan-ext"

def REDIRECT_REMOTE : String := "conan-redirect"

def STABLE_BRANCH_PATTERN : String := "dl/stable/.*"

def STABLE_USERNAME : String := "datalogics"

/-! ## Remote registry model

A Conan remote is a named, URL-addressed repository.  The locally configured
remotes form an ordered list (Conan's registry is an ordered dict keyed by
name).  -/

structure Remote where
  name : String
  url : String
deriving DecidableEq, Repr

/-- The canonical remote table of `src/tasks/conan.py` lines 44-50
(an `OrderedDict` from name to URL, in priority order). -/
def remotesTable : List Remote :=
  [⟨"conan-redirect", DL_ARTIFACTORY ++ "/api/conan/conan-redirect"⟩,
   ⟨"conan-ext", DL_ARTIFACTORY ++ "/api/conan/conan-ext"⟩,
   ⟨"conan-local", DL_ARTIFACTORY ++ "/api/conan/conan-local"⟩,
   ⟨"conan-center", "https://conan.bintray.com"⟩,
   ⟨"bincrafters", "https://api.bintray.com/conan/bincrafters/public-conan"⟩]

/-! ## String primitives

Executable embeddings of the Python string operations the tasks use
(`str.startswith`, `str.strip`, `str.split`, the `in` substring test),
written over the character list of the string. -/

/-- Character-list version of `str.startswith`. -/
def chStartsWith : List Char → List Char → Bool
  | _, [] => true
  | [], _ :: _ => false
  | c :: cs, p :: ps => c == p && chStartsWith cs ps

/-- Embedding of Python `s.startswith(pre)`. -/
def strStartsWith (s pre : String) : Bool :=
  chStartsWith s.data pre.data

/-- Embedding of Python `s.strip()`: drop whitespace from both ends. -/
def pyStrip (s : String) : String :=
  ⟨((s.data.dropWhile Char.isWhitespace).reverse.dropWhile Char.isWhitespace).reverse⟩

/-- Character-list version of `str.split(sep)` for a one-character separator:
splits at every occurrence, keeping empty chunks. -/
def chSplit (sep : Char) : List Char → List (List Char)
  | [] => [[]]
  | c :: cs =>
    match chSplit sep cs, c == sep with
    | r, true => [] :: r
    | [], false => [[c]]
    | h :: t, false => (c :: h) :: t

/-- Embedding of Python `s.split(sep)` for a one-character separator. -/
def pySplit (s : String) (sep : Char) : List String :=
  (chSplit sep s.data).map String.mk

/-- Character-list substring test. -/
def chContainsSub : List Char → List Char → Bool
  | [], needle => needle.isEmpty
  | h :: t, needle => chStartsWith (h :: t) needle || chContainsSub t needle

/-! ## Username selection (src/tasks/conan.py lines 125-133)

`package_username` asks the CI manager for the current branch (`None` when
undetectable) and compares it with `re.match` against `STABLE_BRANCH_PATTERN`.
`re.match('dl/stable/.*', b)` is anchored at the start and `.*` may match the
empty string, so it succeeds exactly when `b` starts with `"dl/stable/"`. -/

def branchMatchesStablePattern (b : String) : Bool :=
  strStartsWith b "dl/stable/"

/-- Embedding of `package_username` (lines 125-133): the branch reported by
the CI manager is `branch` (`none` models Python `None`), and `osUser` is the
result of `getpass.getuser()`.  The Python guard is
`if branch and prog.match(branch)`, so a `None` or empty branch falls through
to the local user. -/
def package_username (branch : Option String) (osUser : String) : String :=
  match branch with
  | none => osUser
  | some b => if b ≠ "" && branchMatchesStablePattern b then STABLE_USERNAME else osUser

/-! ## CMake generator probe and build task (src/tasks/__init__.py lines 59-83)

`cmake_generator` opens `build/CMakeCache.txt`; an absent file raises
`FileNotFoundError` out of `open`.  When the file exists it scans stripped
lines for one starting with `CMAKE_GENERATOR:INTERNAL=` and returns the text
after the first `=` (Python `line.split('=')[1]`), else returns `None`. -/

inductive FileErr where
  | fileNotFound
deriving DecidableEq, Repr

/-- Embedding of the scan loop body of `cmake_generator`: first stripped line
starting with the generator key yields the field after the first `=`. -/
def findGenerator : List String → Option String
  | [] => none
  | l :: ls =>
    if strStartsWith (pyStrip l) "CMAKE_GENERATOR:INTERNAL="
    then some (((pySplit (pyStrip l) '=').drop 1).headD "")
    else findGenerator ls

/-- Embedding of `cmake_generator` (lines 59-66).  `cache` is the contents of
`build/CMakeCache.txt` as a list of lines, or `none` when the file is absent
(in which case `open` raises, modelled as `Except.error`). -/
def cmake_generator (cache : Option (List String)) : Except FileErr (Option String) :=
  match cache with
  | none => .error .fileNotFound
  | some lines => .ok (findGenerator lines)

/-- Errors the `build` task can abort with before running any command. -/
inductive BuildErr where
  | file (e : FileErr)
  | typeErrorNoneGenerator
deriving DecidableEq, Repr

/-- Substring membership, embedding Python `needle in haystack` on strings. -/
def strContains (haystack needle : String) : Bool :=
  chContainsSub haystack.data needle.data

/-- Embedding of the `build` task (src/tasks/__init__.py lines 68-83).  The
result is the (possibly failing) outcome paired with the list of commands
handed to `ctx.run`; an abort produces no command.  `multiCache` models
whether `build/conanbuildinfo_multi.cmake` exists; `cpu` models
`tools.cpu_count()`.  With `parallel`, `cmake_generator()`'s result feeds the
`in` tests: Python `"Makefiles" in None` raises `TypeError`. -/
def build (cache : Option (List String)) (multiCache : Bool) (config : Option String)
    (parallel : Bool) (cpu : Nat) : Option BuildErr × List String :=
  let options := " --build build"
  let bso : Except BuildErr String :=
    if parallel then
      match cmake_generator cache with
      | .error e => .error (.file e)
      | .ok none => .error .typeErrorNoneGenerator
      | .ok (some g) =>
        if strContains g "Makefiles" && !strContains g "NMake" then
          .ok (" -- -j" ++ toString cpu)
        else if strContains g "Visual Studio" then
          .ok (" -- /m:" ++ toString cpu)
        else .ok ""
    else .ok ""
  match bso with
  | .error e => (some e, [])
  | .ok b =>
    let options := if multiCache then options ++ " --config " ++ config.getD "Debug" else options
    (none, ["cmake" ++ options ++ b])

/-! ## Login (src/tasks/conan.py lines 77-106)

`login` walks the configured remotes; remotes whose URL is not under the
Artifactory host are skipped, remotes with a cached token in the local
database are skipped, and the first remote needing a token triggers the
credential prompt (message, username unless given as an option, password)
and a single HTTP exchange of the password for an encrypted token, which is
then reused to authenticate that and every later token-less remote.  A
failed HTTP response raises via `raise_for_status`, aborting the task. -/

/-- Environment of one `login` invocation: the configured remotes, the local
token database (`localdb.get_login` keyed by URL), the optional `--username`
option, the results of the interactive prompts, and the HTTP exchange of
(username, encrypted password) for a token. -/
structure LoginCfg where
  remotes : List Remote
  db : String → Option String
  usernameArg : Option String
  promptUser : String
  promptPass : String
  http : String → String → Except Unit String

/-- The username `login` ends up using: the `--username` option if given,
otherwise the interactively entered (or defaulted) name. -/
def resolvedUser (cfg : LoginCfg) : String :=
  cfg.usernameArg.getD cfg.promptUser

/-- Observable events of a `login` run: the credential prompt block (message,
username and password input), the HTTP token exchange, and
`conan_api.authenticate(user, token, remote_name)` calls. -/
inductive LEv where
  | promptCredentials
  | httpCall
  | auth (user token remoteName : String)
deriving DecidableEq, Repr

/-- A remote is processed (not skipped) when its URL is under the Artifactory
host and the local database has no token cached for that URL (lines 85-91). -/
def needsToken (cfg : LoginCfg) (r : Remote) : Bool :=
  strStartsWith r.url DL_ARTIFACTORY && (cfg.db r.url).isNone

/-- The `for remote in conan_api.remote_list()` loop of `login`, carrying the
`token` variable; the result is the propagated exception (if any) paired with
the event trace. -/
def loginLoop (cfg : LoginCfg) : List Remote → Option String → Option Unit × List LEv
  | [], _ => (none, [])
  | r :: rs, tok =>
    if needsToken cfg r then
      match tok with
      | some t =>
        let p := loginLoop cfg rs (some t)
        (p.1, .auth (resolvedUser cfg) t r.name :: p.2)
      | none =>
        match cfg.http (resolvedUser cfg) cfg.promptPass with
        | .error _ => (some (), [.promptCredentials, .httpCall])
        | .ok t =>
          let p := loginLoop cfg rs (some t)
          (p.1, .promptCredentials :: .httpCall :: .auth (resolvedUser cfg) t r.name :: p.2)
    else loginLoop cfg rs tok

/-- Embedding of the `login` task (lines 77-106). -/
def login (cfg : LoginCfg) : Option Unit × List LEv :=
  loginLoop cfg cfg.remotes none

/-! ## Windows long-path registry check (src/tasks/conan.py lines 194-207)

`check_long_paths` opens the `FileSystem` registry key (an absent key raises
out of `OpenKey`), then queries the `LongPathsEnabled` value; a missing value
raises `FileNotFoundError`, which is caught and treated as the feature being
disabled, after which warnings are printed and execution continues. -/

inductive RegErr where
  | keyMissing
deriving DecidableEq, Repr

/-- Outcome of the registry access on Windows: the key is missing (raises from
`OpenKey`), the `LongPathsEnabled` value is missing (raises
`FileNotFoundError` from `QueryValueEx`), or a value was found. -/
inductive RegProbe where
  | keyMissing
  | valueMissing
  | value (v : Nat)
deriving DecidableEq, Repr

def longPathWarnings : List String :=
  ["It is strongly recommended to enable long paths in Windows",
   "See the LongPathsEnabled.reg file in the tasks directory"]

/-- Embedding of `check_long_paths` on Windows: the `Option RegErr` is the
propagated exception (if any) and the list collects the printed warnings. -/
def check_long_paths (probe : RegProbe) : Option RegErr × List String :=
  match probe with
  | .keyMissing => (some .keyMissing, [])
  | .valueMissing => (none, longPathWarnings)
  | .value v => (none, if v = 0 then longPathWarnings else [])

/-! ## Dependency promotion (src/tasks/conan.py lines 237-283)

`upload_dependencies_internal` walks the resolved dependency graph (one
`conanfile` per non-root node); each dependency carries a package reference
(name, version, user, channel) and may be an alias package (`hasattr(…,
'alias')`).  The Conan API calls it issues are recorded as operations. -/

/-- A resolved dependency as seen by the loop: its package reference fields
and whether the recipe is an alias. -/
structure Dep where
  name : String
  version : String
  user : String
  channel : String
  isAlias : Bool
deriving DecidableEq, Repr

/-- A package reference (name/version@user/channel). -/
structure Ref where
  name : String
  version : String
  user : String
  channel : String
deriving DecidableEq, Repr

/-- The reference of the dependency itself (`repr(conanfile)`). -/
def depRef (d : Dep) : Ref := ⟨d.name, d.version, d.user, d.channel⟩

/-- The Datalogics-owned reference (`ConanFileReference(name, version,
STABLE_USERNAME, channel)`, line 268). -/
def dlRef (d : Dep) : Ref := ⟨d.name, d.version, STABLE_USERNAME, d.channel⟩

/-- Conan API operations issued by the promotion loop. -/
inductive Op where
  | copy (src : Ref) (userChannel : String)
  | upload (r : Ref) (remote : String)
  | updateRef (r : Ref) (remote : String)
  | removeLocal (r : Ref)
  | exportAlias (src dst : Ref)
deriving DecidableEq, Repr

/-- Embedding of `stable_non_local_dependencies` (lines 241-249): keep the
dependencies whose user is neither `datalogics` nor the local OS user and
whose channel is `stable`. -/
def stable_non_local_dependencies (osUser : String) (deps : List Dep) : List Dep :=
  deps.filter (fun d => !(d.user == STABLE_USERNAME || d.user == osUser)
    && d.channel == "stable")

/-- The operations issued for one promoted (non-alias) dependency, in source
order (lines 266-283): copy under the stable identity, upload the new
reference to `conan-ext`, point the cached remote ref at `conan-redirect`
when the original reference had one, remove the local cache copy, export the
redirecting alias, and upload it to `conan-redirect`. -/
def promoteOps (remoteRefs : List Ref) (d : Dep) : List Op :=
  [.copy (depRef d) (STABLE_USERNAME ++ "/" ++ d.channel),
   .upload (dlRef d) UPLOAD_DEPENDENCIES_REMOTE]
  ++ (if depRef d ∈ remoteRefs then [.updateRef (depRef d) REDIRECT_REMOTE] else [])
  ++ [.removeLocal (depRef d),
      .exportAlias (depRef d) (dlRef d),
      .upload (depRef d) REDIRECT_REMOTE]

/-- The `for conanfile in stable_non_local_dependencies(...)` loop body
(lines 261-283): alias dependencies are skipped, the rest are promoted. -/
def promoteLoop (remoteRefs : List Ref) : List Dep → List Op
  | [] => []
  | d :: ds => (if d.isAlias then [] else promoteOps remoteRefs d) ++ promoteLoop remoteRefs ds

/-- Embedding of `upload_dependencies_internal` (lines 255-283) as the list
of Conan API operations it issues; `remoteRefs` is the result of
`conan_api.remote_list_ref()`. -/
def upload_dependencies_internal (osUser : String) (remoteRefs : List Ref)
    (deps : List Dep) : List Op :=
  promoteLoop remoteRefs (stable_non_local_dependencies osUser deps)

/-! ## Pipeline traces (src/tasks/conan.py lines 165-188, 209-235, 285-324)

The side-effecting pipeline of `copy_dependencies` (and of `package`) is
modelled as an event trace.  A computation is a pair of an optional
propagated exception and the events it emitted before finishing or raising;
`with tempfile.TemporaryDirectory()` is the bracket that emits the release
event on both the normal and the exceptional path (the context-manager
protocol guarantees cleanup), while the hand-written
`conan_redirect_removed` context manager has no try/finally around its
`yield`, so its trailing re-add runs only on normal exit. -/

/-- Events of the packaging/copy pipeline. -/
inductive Ev where
  | acquireTmp (id : Nat)
  | releaseTmp (id : Nat)
  | copyUserHome
  | checkLongPaths
  | removeRemoteRefs
  | removeRemote (n : String)
  | addRemote (n : String)
  | install (i : Nat)
  | installRef (i : Nat)
  | runBuilder
  | dep (o : Op)
deriving DecidableEq, Repr

/-- A pipeline computation: the exception it propagates (if any) and its
event trace. -/
def Res : Type := Option Unit × List Ev

/-- Sequencing: if the first computation raises, the second never runs. -/
def seqRes (a b : Res) : Res :=
  match a.1 with
  | some e => (some e, a.2)
  | none => (b.1, a.2 ++ b.2)

/-- Bracket for `with tempfile.TemporaryDirectory() as tmpdir:`: the
directory is acquired, the body runs, and the directory is released when the
block exits — also when the body raises. -/
def withTempDir (id : Nat) (body : Res) : Res :=
  (body.1, .acquireTmp id :: body.2 ++ [.releaseTmp id])

/-- Embedding of the `conan_redirect_removed` context manager (lines
285-294): remove the redirect remote if present, run the body, and re-add
the redirect remote — but only on normal exit, because the `yield` is not
wrapped in try/finally, so an exception from the body propagates past the
re-add; on normal exit the re-add is unconditional. -/
def conan_redirect_removed (present : Bool) (body : Res) : Res :=
  match body.1 with
  | some e => (some e, (if present then [Ev.removeRemote REDIRECT_REMOTE] else []) ++ body.2)
  | none => (none, (if present then [Ev.removeRemote REDIRECT_REMOTE] else []) ++ body.2
      ++ [Ev.addRemote REDIRECT_REMOTE])

/-- Embedding of the `temporary_user_home_api` context manager (lines
209-235): inside a temporary directory, copy the Conan user home, check the
Windows long-path setting, strip all remote refs, then run the body. -/
def temporary_user_home_api (body : Res) : Res :=
  withTempDir 0 (seqRes (none, [.copyUserHome, .checkLongPaths, .removeRemoteRefs]) body)

/-- The `for settings, … in builder.items` loop of
`install_all_configurations` (lines 307-316): each configuration `i` gets its
own temporary install folder; `f i` is the outcome of that `conan_api.install`
call. -/
def installLoop (f : Nat → Option Unit) : List Nat → Res
  | [] => (none, [])
  | i :: is => seqRes (withTempDir (i + 1) (f i, [.install i])) (installLoop f is)

/-- Embedding of `install_all_configurations` (lines 299-316): the install
loop runs with the redirect remote removed. -/
def install_all_configurations (present : Bool) (f : Nat → Option Unit)
    (items : List Nat) : Res :=
  conan_redirect_removed present (installLoop f items)

/-- The promotion phase as a trace (its operations are pure events here). -/
def upload_dependencies_res (osUser : String) (remoteRefs : List Ref)
    (deps : List Dep) : Res :=
  (none, (upload_dependencies_internal osUser remoteRefs deps).map Ev.dep)

/-- Embedding of the `copy_dependencies` task (lines 318-324): inside the
temporary user home, install all configurations, then upload the stable
non-local dependencies. -/
def copy_dependencies (present : Bool) (f : Nat → Option Unit) (items : List Nat)
    (osUser : String) (remoteRefs : List Ref) (deps : List Dep) : Res :=
  temporary_user_home_api
    (seqRes (install_all_configurations present f items)
      (upload_dependencies_res osUser remoteRefs deps))

/-- The per-build-configuration loop of the `package` task (lines 178-186):
each configuration installs `leptonica` into its own temporary folder. -/
def packageLoop (g : Nat → Option Unit) : List Nat → Res
  | [] => (none, [])
  | i :: is => seqRes (withTempDir (i + 1) (g i, [.installRef i])) (packageLoop g is)

/-- Embedding of the effectful tail of the `package` task (lines 165-188):
the per-configuration installs, then `builder.run`. -/
def package (g : Nat → Option Unit) (items : List Nat) : Res :=
  seqRes (packageLoop g items) (none, [.runBuilder])

/-- An event is a temporary-directory acquire or release. -/
def isTmpEv : Ev → Bool
  | .acquireTmp _ => true
  | .releaseTmp _ => true
  | _ => false

/-- Well-bracketed temporary-directory usage: every acquired directory is
released within its own scope (also across raised exceptions), other events
are neutral. -/
inductive Balanced : List Ev → Prop
  | nil : Balanced []
  | neutral (e : Ev) (t : List Ev) : isTmpEv e = false → Balanced t → Balanced (e :: t)
  | wrap (id : Nat) (inner rest : List Ev) : Balanced inner → Balanced rest →
      Balanced (.acquireTmp id :: inner ++ .releaseTmp id :: rest)

/-- The expected install-phase events when every install succeeds: each
configuration's install runs inside its own acquired-and-released temporary
folder. -/
def installEvents : List Nat → List Ev
  | [] => []
  | i :: is => .acquireTmp (i + 1) :: .install i :: .releaseTmp (i + 1) :: installEvents is

/-! ## Remote reconciliation (src/tasks/conan.py lines 52-75)

The registry operations themselves live in the external Conan 1.x client, so
their semantics are part of the environment model: `remote_rename old new`
renames the remote called `old`; `remote_add name url insert force=True`
(Conan's `_upsert`) drops any remote already called `name` and inserts the
new pair at position `insert` (appending when the index is past the end,
like Python's `list.insert`). -/

/-- Insertion at a position, clamped to the end, as Python `list.insert`. -/
def insertAt (n : Nat) (x : α) : List α → List α :=
  match n with
  | 0 => fun l => x :: l
  | n + 1 => fun l =>
    match l with
    | [] => [x]
    | y :: ys => y :: insertAt n x ys

/-- Embedding of `get_remotes` (lines 52-58): a dict from URL to remote name,
filled by a forward iteration, so for a duplicated URL the last remote wins.
Represented as a lookup function: the first match in the reversed list. -/
def get_remotes (rs : List Remote) : String → Option String := fun u =>
  (rs.reverse.find? (fun r => r.url == u)).map Remote.name

/-- Environment model of `conan_api.remote_rename old new`: the remote named
`old` now answers to `new`. -/
def remote_rename (old new : String) (rs : List Remote) : List Remote :=
  rs.map (fun r => if r.name = old then ⟨new, r.url⟩ else r)

/-- Environment model of `conan_api.remote_add name url insert=loc force=True`:
any remote already named `name` is dropped and the pair is inserted at
position `loc`. -/
def remote_add_force (name url : String) (loc : Nat) (rs : List Remote) : List Remote :=
  insertAt loc ⟨name, url⟩ (rs.filter (fun r => r.name ≠ name))

/-- One iteration of the `setup_remotes` loop (lines 67-75) for the canonical
pair `c` at position `loc`: if the canonical URL was present in the initial
registry (the `urls` dict is computed once, before the loop) under a
different name, that remote is renamed first; then the canonical pair is
force-added at position `loc`. -/
def setup_step (urls : String → Option String) (loc : Nat) (c : Remote)
    (rs : List Remote) : List Remote :=
  remote_add_force c.name c.url loc
    (match urls c.url with
     | some old => if old ≠ c.name then remote_rename old c.name rs else rs
     | none => rs)

/-- The `for remote, url in remotes.items()` loop of `setup_remotes`, carrying
`insert_loc`. -/
def setup_loop (urls : String → Option String) : Nat → List Remote → List Remote → List Remote
  | _, [], rs => rs
  | loc, c :: cs, rs => setup_loop urls (loc + 1) cs (setup_step urls loc c rs)

/-- Embedding of the `setup_remotes` task (lines 60-75) as a function from the
initial registry to the final one. -/
def setup_remotes (rs : List Remote) : List Remote :=
  setup_loop (get_remotes rs) 0 remotesTable rs

/-- Side condition for the amended remote-reconciliation claims: no initial
remote pairs a canonical URL with a canonical name other than the one the
canonical table assigns to that URL.  (Violating it makes the rename step of
a later iteration capture a canonical remote installed by an earlier
iteration, because the URL dictionary is computed once, up front.) -/
def CanonicalNamesConsistent (init : List Remote) : Prop :=
  ∀ r ∈ init, r.url ∈ remotesTable.map Remote.url →
    r.name ∈ remotesTable.map Remote.name → r ∈ remotesTable

/-- The claim-side condition: the CI-reported branch exists and matches the
release-branch regular expression `dl/stable/.*` (anchored `re.match`). -/
def branchIsStable : Option String → Bool
  | none => false
  | some b => branchMatchesStablePattern b

/-- A concrete login environment: the redirect remote already holds a cached
token, the local remote does not, and the exchange succeeds. -/
def loginCfgTwo : LoginCfg :=
  ⟨[⟨"conan-redirect", DL_ARTIFACTORY ++ "/api/conan/conan-redirect"⟩,
    ⟨"conan-local", DL_ARTIFACTORY ++ "/api/conan/conan-local"⟩],
   fun u => if u == DL_ARTIFACTORY ++ "/api/conan/conan-redirect"
     then some "cached-token" else none,
   none, "developer", "encrypted", fun _ _ => .ok "token-abc"⟩

/-- A concrete login environment whose HTTP exchange fails while one remote
still needs a token. -/
def loginCfgFail : LoginCfg :=
  ⟨[⟨"conan-local", DL_ARTIFACTORY ++ "/api/conan/conan-local"⟩],
   fun _ => none, some "builder", "builder", "bad-password", fun _ _ => .error ()⟩

/-! ### Registry lemmas -/

theorem insertAt_length_append (done rest : List Remote) (x : Remote) :
    insertAt done.length x (done ++ rest) = done ++ x :: rest := by
  induction done with
  | nil => rfl
  | cons d ds ih => simp [insertAt, ih]

theorem remote_rename_append (old new : String) (l₁ l₂ : List Remote) :
    remote_rename old new (l₁ ++ l₂) = remote_rename old new l₁ ++ remote_rename old new l₂ :=
  List.map_append _ _ _

theorem remote_rename_of_not_mem (old new : String) (l : List Remote)
    (h : old ∉ l.map Remote.name) : remote_rename old new l = l := by
  induction l with
  | nil => rfl
  | cons r rs ih =>
    simp only [List.map_cons, List.mem_cons, not_or] at h
    simp only [remote_rename, List.map_cons] at ih ⊢
    rw [if_neg (fun hr => h.1 hr.symm), ih h.2]

theorem filter_name_of_not_mem (n : String) (l : List Remote)
    (h : n ∉ l.map Remote.name) : l.filter (fun r => r.name ≠ n) = l := by
  refine List.filter_eq_self.mpr (fun r hr => ?_)
  simp only [ne_eq, decide_eq_true_eq]
  exact fun he => h (he ▸ List.mem_map_of_mem Remote.name hr)

theorem get_remotes_some (rs : List Remote) (u old : String)
    (h : get_remotes rs u = some old) : ∃ r ∈ rs, r.url = u ∧ r.name = old := by
  unfold get_remotes at h
  cases hf : rs.reverse.find? (fun r => r.url == u) with
  | none => rw [hf] at h; simp at h
  | some r =>
    rw [hf] at h
    simp only [Option.map_some'] at h
    have hm : r ∈ rs := List.mem_reverse.mp (List.mem_of_find?_eq_some hf)
    have hp : r.url = u := by simpa using List.find?_some hf
    exact ⟨r, hm, hp, by injection h⟩

/-- Any two canonical remotes with the same URL coincide. -/
theorem remotesTable_url_inj : ∀ a ∈ remotesTable, ∀ b ∈ remotesTable, a.url = b.url → a = b :=
  fun _ ha _ hb h => List.inj_on_of_nodup_map (by decide) ha hb h

/-- Core loop invariant for `setup_remotes`: when the already-processed
canonical pairs `done` sit at the front of the registry, their names are
distinct from the remaining canonical names, and the (fixed, precomputed)
URL dictionary never maps a remaining canonical URL to a name of the
processed or remaining canonical pairs other than its own, the loop extends
the canonical front, pushing everything else behind. -/
theorem setup_loop_canonical : ∀ (cs done T : List Remote) (urls : String → Option String),
    ((done ++ cs).map Remote.name).Nodup →
    (∀ c ∈ cs, ∀ old, urls c.url = some old →
      old = c.name ∨ old ∉ (done ++ cs).map Remote.name) →
    ∃ L, setup_loop urls done.length cs (done ++ T) = (done ++ cs) ++ L
  | [], done, T, urls, _, _ => ⟨T, by simp [setup_loop]⟩
  | c :: cs, done, T, urls, hnd, hold => by
    have hcname_done : c.name ∉ done.map Remote.name := by
      intro hmem
      rw [List.map_append, List.nodup_append] at hnd
      exact hnd.2.2 hmem (by simp)
    have hstep : ∃ T', setup_step urls done.length c (done ++ T) = (done ++ [c]) ++ T' := by
      unfold setup_step remote_add_force
      cases hc : urls c.url with
      | none =>
        refine ⟨T.filter (fun r => r.name ≠ c.name), ?_⟩
        simp only [hc]
        rw [List.filter_append, filter_name_of_not_mem c.name done hcname_done,
          insertAt_length_append]
        simp
      | some old =>
        by_cases he : old = c.name
        · refine ⟨T.filter (fun r => r.name ≠ c.name), ?_⟩
          simp only [hc]
          rw [if_neg (fun hn => hn he)]
          rw [List.filter_append, filter_name_of_not_mem c.name done hcname_done,
            insertAt_length_append]
          simp
        · have hold' : old ∉ done.map Remote.name := by
            rcases hold c (by simp) old hc with h | h
            · exact absurd h he
            · rw [List.map_append] at h
              exact fun hmem => h (List.mem_append.mpr (Or.inl hmem))
          refine ⟨(remote_rename old c.name T).filter (fun r => r.name ≠ c.name), ?_⟩
          simp only [hc]
          rw [if_pos he]
          rw [remote_rename_append, remote_rename_of_not_mem old c.name done hold',
            List.filter_append, filter_name_of_not_mem c.name done hcname_done,
            insertAt_length_append]
          simp
    obtain ⟨T', hT'⟩ := hstep
    have hnd' : (((done ++ [c]) ++ cs).map Remote.name).Nodup := by
      rw [List.append_assoc]; exact hnd
    have hold' : ∀ c' ∈ cs, ∀ old, urls c'.url = some old →
        old = c'.name ∨ old ∉ ((done ++ [c]) ++ cs).map Remote.name := by
      rw [List.append_assoc]
      exact fun c' hc' old h => hold c' (List.mem_cons_of_mem _ hc') old h
    obtain ⟨L, hL⟩ := setup_loop_canonical cs (done ++ [c]) T' urls hnd' hold'
    refine ⟨L, ?_⟩
    show setup_loop urls (done.length + 1) cs (setup_step urls done.length c (done ++ T)) = _
    rw [hT']
    have hlen : done.length + 1 = (done ++ [c]).length := by simp
    rw [hlen, hL]
    simp

/-- Renaming `old` to `n` and then dropping every remote named `n` is the
same as dropping every remote named `old` or `n`: the renamed remotes are
exactly the ones the filter then removes. -/
theorem rename_filter (old n : String) (hne : old ≠ n) (T : List Remote) :
    (remote_rename old n T).filter (fun r => r.name ≠ n) =
      T.filter (fun r => decide (r.name ≠ old) && decide (r.name ≠ n)) := by
  induction T with
  | nil => rfl
  | cons t T ih =>
    simp only [remote_rename, List.map_cons] at ih ⊢
    by_cases h1 : t.name = old
    · rw [if_pos h1]
      simpa [h1, hne] using ih
    · rw [if_neg h1]
      by_cases h2 : t.name = n
      · simpa [h1, h2] using ih
      · simpa [h1, h2] using ih

/-- Skipping a non-matching front while searching. -/
theorem find?_append_of_none (p : Remote → Bool) (l₁ l₂ : List Remote)
    (h : ∀ x ∈ l₁, ¬ p x) : (l₁ ++ l₂).find? p = l₂.find? p := by
  induction l₁ with
  | nil => rfl
  | cons a l ih =>
    rw [List.cons_append, List.find?_cons_of_neg _ (h a (by simp))]
    exact ih (fun x hx => h x (by simp [hx]))

/-- In a list whose URLs are pairwise distinct, searching for a member's URL
finds that member. -/
theorem find?_url_of_nodup (l : List Remote) (t : Remote)
    (h : (l.map Remote.url).Nodup) (ht : t ∈ l) :
    l.find? (fun r => r.url == t.url) = some t := by
  induction l with
  | nil => cases ht
  | cons a l ih =>
    simp only [List.map_cons, List.nodup_cons] at h
    rcases List.mem_cons.mp ht with rfl | ht'
    · exact List.find?_cons_of_pos (p := fun r : Remote => r.url == t.url) _ (by simp)
    · have hne : ¬ ((fun r => r.url == t.url) a = true) := by
        simp only [beq_iff_eq]
        intro he
        exact h.1 (he ▸ List.mem_map_of_mem Remote.url ht')
      rw [List.find?_cons_of_neg (p := fun r : Remote => r.url == t.url) _ hne]
      exact ih h.2 ht'

/-- With pairwise-distinct URLs, the URL dictionary maps each remote's URL to
its own name. -/
theorem get_remotes_of_nodup_urls (init : List Remote)
    (hu : (init.map Remote.url).Nodup) :
    ∀ t ∈ init, get_remotes init t.url = some t.name := by
  intro t ht
  unfold get_remotes
  rw [find?_url_of_nodup init.reverse t ?_ (List.mem_reverse.mpr ht)]
  · rfl
  · rw [List.map_reverse]
    exact List.nodup_reverse.mpr hu

/-- After reconciliation the canonical front owns its URLs: looking up a
canonical URL in `remotesTable ++ L` yields the canonical name, provided no
leftover in `L` carries a canonical URL. -/
theorem get_remotes_front (L : List Remote) (c : Remote) (hc : c ∈ remotesTable)
    (hL : ∀ t ∈ L, t.url ∉ remotesTable.map Remote.url) :
    get_remotes (remotesTable ++ L) c.url = some c.name := by
  unfold get_remotes
  rw [List.reverse_append]
  rw [find?_append_of_none _ L.reverse _ ?_]
  · rw [find?_url_of_nodup remotesTable.reverse c ?_ (List.mem_reverse.mpr hc)]
    · rfl
    · rw [List.map_reverse]
      exact List.nodup_reverse.mpr (by decide)
  · intro x hx
    simp only [beq_iff_eq]
    intro he
    exact hL x (List.mem_reverse.mp hx) (he ▸ List.mem_map_of_mem Remote.url hc)

theorem consistent_hold (init : List Remote) (h : CanonicalNamesConsistent init) :
    ∀ c ∈ remotesTable, ∀ old, get_remotes init c.url = some old →
      old = c.name ∨ old ∉ remotesTable.map Remote.name := by
  intro c hc old hget
  by_cases hm : old ∈ remotesTable.map Remote.name
  · left
    obtain ⟨r, hr, hru, hrn⟩ := get_remotes_some init c.url old hget
    have hrt : r ∈ remotesTable := by
      refine h r hr ?_ ?_
      · rw [hru]; exact List.mem_map_of_mem Remote.url hc
      · rw [hrn]; exact hm
    have hrc : r = c := remotesTable_url_inj r hrt c hc hru
    rw [← hrn, hrc]
  · right; exact hm

/-- C2 (counterexample): with a single initial remote named `conan-redirect`
that points at the canonical `conan-ext` URL, the canonical
(`conan-redirect`, redirect-URL) pair is absent from the final remote list
produced by `setup_remotes`, because the rename of iteration 1 (driven by the
URL dictionary computed before the loop) captures the canonical remote that
iteration 0 had just force-added.  This falsifies the claim as stated for
this initial configuration. -/
theorem setup_remotes_C2_cex :
    (Remote.mk "conan-redirect" (DL_ARTIFACTORY ++ "/api/conan/conan-redirect")) ∈ remotesTable ∧
    (Remote.mk "conan-redirect" (DL_ARTIFACTORY ++ "/api/conan/conan-redirect")) ∉
      setup_remotes [Remote.mk "conan-redirect" (DL_ARTIFACTORY ++ "/api/conan/conan-ext")] := by
  decide

/-- C2 (amended): for every initial remote configuration in which no remote
pairs a canonical URL with a canonical name other than its own, after
`setup_remotes` runs the canonical (name, URL) pairs occupy positions
0,1,2,3,4 of the remote list in the fixed priority order `conan-redirect`,
`conan-ext`, `conan-local`, `conan-center`, `bincrafters` (pre-existing
remotes holding a canonical URL under a different name having been renamed
and absorbed by the force-add, everything else pushed behind). -/
theorem setup_remotes_canonical_front (init : List Remote)
    (h : CanonicalNamesConsistent init) :
    (setup_remotes init).take remotesTable.length = remotesTable := by
  obtain ⟨L, hL⟩ := setup_loop_canonical remotesTable [] init (get_remotes init)
    (by decide) (consistent_hold init h)
  have hs : setup_remotes init = remotesTable ++ L := by
    unfold setup_remotes
    simpa using hL
  rw [hs, List.take_left]

/-- Witness for `setup_remotes_canonical_front`: a registry holding the
canonical redirect URL under a developer-chosen name satisfies the side
condition, and reconciliation installs the canonical front. -/
theorem setup_remotes_canonical_front_witness :
    CanonicalNamesConsistent
      [Remote.mk "artifactory" (DL_ARTIFACTORY ++ "/api/conan/conan-redirect")] ∧
    (setup_remotes
      [Remote.mk "artifactory" (DL_ARTIFACTORY ++ "/api/conan/conan-redirect")]).take
        remotesTable.length = remotesTable :=
  ⟨by unfold CanonicalNamesConsistent; decide,
   setup_remotes_canonical_front _ (by unfold CanonicalNamesConsistent; decide)⟩

/-- Step characterization for the idempotence proof: one loop iteration
extends the canonical front, and the surviving tail consists of unchanged
entries of `T` whose name is neither the canonical name just installed nor
the name the URL dictionary associates with the just-installed URL. -/
theorem setup_step_spec (urls : String → Option String) (done T : List Remote) (c : Remote)
    (hc_done : c.name ∉ done.map Remote.name)
    (hsafe : ∀ old, urls c.url = some old → old ≠ c.name → old ∉ done.map Remote.name) :
    ∃ T', setup_step urls done.length c (done ++ T) = (done ++ [c]) ++ T' ∧
      T'.Sublist T ∧
      (∀ t ∈ T', t.name ≠ c.name ∧ ∀ old, urls c.url = some old → t.name ≠ old) := by
  unfold setup_step remote_add_force
  cases hc : urls c.url with
  | none =>
    refine ⟨T.filter (fun r => r.name ≠ c.name), ?_, List.filter_sublist T, ?_⟩
    · simp only [hc]
      rw [List.filter_append, filter_name_of_not_mem c.name done hc_done,
        insertAt_length_append]
      simp
    · intro t ht
      refine ⟨by simpa using List.of_mem_filter ht, ?_⟩
      intro old h
      cases h
  | some old =>
    by_cases he : old = c.name
    · refine ⟨T.filter (fun r => r.name ≠ c.name), ?_, List.filter_sublist T, ?_⟩
      · simp only [hc]
        rw [if_neg (fun hn => hn he)]
        rw [List.filter_append, filter_name_of_not_mem c.name done hc_done,
          insertAt_length_append]
        simp
      · intro t ht
        have h1 : t.name ≠ c.name := by simpa using List.of_mem_filter ht
        refine ⟨h1, ?_⟩
        intro old' h'
        injection h' with h''
        rw [← h'', he]
        exact h1
    · have hold' : old ∉ done.map Remote.name := hsafe old hc he
      refine ⟨T.filter (fun r => decide (r.name ≠ old) && decide (r.name ≠ c.name)), ?_,
        List.filter_sublist T, ?_⟩
      · simp only [hc]
        rw [if_pos he]
        rw [remote_rename_append, remote_rename_of_not_mem old c.name done hold',
          List.filter_append, filter_name_of_not_mem c.name done hc_done,
          rename_filter old c.name he T, insertAt_length_append]
        simp
      · intro t ht
        have hb := List.of_mem_filter ht
        simp only [Bool.and_eq_true, decide_eq_true_eq] at hb
        refine ⟨hb.2, ?_⟩
        intro old' h'
        injection h' with h''
        rw [← h'']
        exact hb.1

/-- Loop invariant for idempotence: in addition to the canonical front of
`setup_loop_canonical`, the leftover tail carries neither a canonical name
nor a canonical URL, provided the URL dictionary maps the URL of each tail
entry that is still due for processing to that entry's own name. -/
theorem setup_loop_clean : ∀ (cs done T : List Remote) (urls : String → Option String),
    ((done ++ cs).map Remote.name).Nodup →
    (∀ c ∈ cs, ∀ old, urls c.url = some old →
      old = c.name ∨ old ∉ (done ++ cs).map Remote.name) →
    (∀ t ∈ T, t.name ∉ done.map Remote.name) →
    (∀ t ∈ T, t.url ∉ done.map Remote.url) →
    (∀ t ∈ T, t.url ∈ cs.map Remote.url → urls t.url = some t.name) →
    ∃ L, setup_loop urls done.length cs (done ++ T) = (done ++ cs) ++ L ∧
      (∀ t ∈ L, t.name ∉ (done ++ cs).map Remote.name ∧ t.url ∉ (done ++ cs).map Remote.url)
  | [], done, T, urls, _, _, hTa, hTe, _ => by
    refine ⟨T, by simp [setup_loop], ?_⟩
    intro t ht
    simp only [List.append_nil]
    exact ⟨hTa t ht, hTe t ht⟩
  | c :: cs, done, T, urls, hnd, hold, hTa, hTe, hTd => by
    have hcname_done : c.name ∉ done.map Remote.name := by
      intro hmem
      rw [List.map_append, List.nodup_append] at hnd
      exact hnd.2.2 hmem (by simp)
    have hsafe : ∀ old, urls c.url = some old → old ≠ c.name →
        old ∉ done.map Remote.name := by
      intro old h hne
      rcases hold c (by simp) old h with h' | h'
      · exact absurd h' hne
      · rw [List.map_append] at h'
        exact fun hmem => h' (List.mem_append.mpr (Or.inl hmem))
    obtain ⟨T', hT', hsub, hT'p⟩ := setup_step_spec urls done T c hcname_done hsafe
    have hTa' : ∀ t ∈ T', t.name ∉ (done ++ [c]).map Remote.name := by
      intro t ht
      rw [List.map_append, List.mem_append]
      rintro (hmem | hmem)
      · exact hTa t (hsub.subset ht) hmem
      · simp only [List.map_cons, List.map_nil, List.mem_singleton] at hmem
        exact (hT'p t ht).1 hmem
    have hTe' : ∀ t ∈ T', t.url ∉ (done ++ [c]).map Remote.url := by
      intro t ht
      rw [List.map_append, List.mem_append]
      rintro (hmem | hmem)
      · exact hTe t (hsub.subset ht) hmem
      · simp only [List.map_cons, List.map_nil, List.mem_singleton] at hmem
        have hu : urls c.url = some t.name := by
          rw [← hmem]
          exact hTd t (hsub.subset ht) (by rw [hmem]; simp)
        exact (hT'p t ht).2 t.name hu rfl
    have hTd' : ∀ t ∈ T', t.url ∈ cs.map Remote.url → urls t.url = some t.name := by
      intro t ht hurl
      exact hTd t (hsub.subset ht) (by simp [hurl])
    have hnd' : (((done ++ [c]) ++ cs).map Remote.name).Nodup := by
      rw [List.append_assoc]; exact hnd
    have hold' : ∀ c' ∈ cs, ∀ old, urls c'.url = some old →
        old = c'.name ∨ old ∉ ((done ++ [c]) ++ cs).map Remote.name := by
      rw [List.append_assoc]
      exact fun c' hc' old h => hold c' (List.mem_cons_of_mem _ hc') old h
    obtain ⟨L, hL, hLp⟩ := setup_loop_clean cs (done ++ [c]) T' urls hnd' hold' hTa' hTe' hTd'
    refine ⟨L, ?_, ?_⟩
    · show setup_loop urls (done.length + 1) cs (setup_step urls done.length c (done ++ T)) = _
      rw [hT']
      have hlen : done.length + 1 = (done ++ [c]).length := by simp
      rw [hlen, hL]
      simp
    · intro t ht
      have h' := hLp t ht
      rw [List.append_assoc] at h'
      exact h'

/-- When the registry already starts with the canonical pairs `cs` (behind an
already-processed front `done`) and the URL dictionary sends each canonical
URL to its own canonical name, the loop leaves the registry unchanged. -/
theorem setup_loop_id : ∀ (cs done L : List Remote) (urls : String → Option String),
    ((done ++ cs).map Remote.name).Nodup →
    (∀ c ∈ cs, ∀ old, urls c.url = some old → old = c.name) →
    (∀ t ∈ L, t.name ∉ (done ++ cs).map Remote.name) →
    setup_loop urls done.length cs (done ++ (cs ++ L)) = done ++ (cs ++ L)
  | [], done, L, urls, _, _, _ => by simp [setup_loop]
  | c :: cs, done, L, urls, hnd, hself, hL => by
    simp only [List.cons_append]
    have hcname_done : c.name ∉ done.map Remote.name := by
      intro hmem
      rw [List.map_append, List.nodup_append] at hnd
      exact hnd.2.2 hmem (by simp)
    have hcname_tail : c.name ∉ (cs ++ L).map Remote.name := by
      rw [List.map_append, List.mem_append]
      rintro (hmem | hmem)
      · rw [List.map_append, List.nodup_append] at hnd
        have hcons := hnd.2.1
        simp only [List.map_cons, List.nodup_cons] at hcons
        exact hcons.1 hmem
      · obtain ⟨t, ht, htn⟩ := List.mem_map.mp hmem
        refine hL t ht ?_
        rw [List.map_append, List.mem_append]
        right
        rw [htn]
        simp
    have hcfilter : (c :: (cs ++ L)).filter (fun r => r.name ≠ c.name) = cs ++ L := by
      rw [List.filter_cons, if_neg (by simp)]
      exact filter_name_of_not_mem c.name (cs ++ L) hcname_tail
    have hstep : setup_step urls done.length c (done ++ c :: (cs ++ L)) =
        done ++ c :: (cs ++ L) := by
      unfold setup_step remote_add_force
      cases hc : urls c.url with
      | none =>
        simp only [hc]
        rw [List.filter_append, filter_name_of_not_mem c.name done hcname_done, hcfilter,
          insertAt_length_append]
      | some old =>
        have ho : old = c.name := hself c (by simp) old hc
        simp only [hc]
        rw [if_neg (fun hn => hn ho)]
        rw [List.filter_append, filter_name_of_not_mem c.name done hcname_done, hcfilter,
          insertAt_length_append]
    show setup_loop urls (done.length + 1) cs
        (setup_step urls done.length c (done ++ c :: (cs ++ L))) = done ++ c :: (cs ++ L)
    rw [hstep]
    have hshape : done ++ c :: (cs ++ L) = (done ++ [c]) ++ (cs ++ L) := by simp
    have hnd' : (((done ++ [c]) ++ cs).map Remote.name).Nodup := by
      rw [List.append_assoc]; exact hnd
    have hself' : ∀ c' ∈ cs, ∀ old, urls c'.url = some old → old = c'.name :=
      fun c' hc' old h => hself c' (List.mem_cons_of_mem _ hc') old h
    have hL' : ∀ t ∈ L, t.name ∉ ((done ++ [c]) ++ cs).map Remote.name := by
      rw [List.append_assoc]
      exact fun t ht => hL t ht
    have hrec := setup_loop_id cs (done ++ [c]) L urls hnd' hself' hL'
    rw [hshape]
    have hlen : done.length + 1 = (done ++ [c]).length := by simp
    rw [hlen, hrec]

/-- C3 (counterexample): starting from the single remote `conan-redirect`
pointing at the canonical `conan-ext` URL, running `setup_remotes` twice does
not yield the same remote list as running it once (the second run restores
the `conan-redirect` entry that the first run's rename had clobbered), so
reconciliation is not idempotent for every initial configuration. -/
theorem setup_remotes_C3_cex :
    setup_remotes (setup_remotes
        [Remote.mk "conan-redirect" (DL_ARTIFACTORY ++ "/api/conan/conan-ext")]) ≠
      setup_remotes [Remote.mk "conan-redirect" (DL_ARTIFACTORY ++ "/api/conan/conan-ext")] := by
  decide

/-- C3 (amended): remote reconciliation is idempotent for every initial
remote configuration with pairwise-distinct URLs in which no remote pairs a
canonical URL with a canonical name other than its own: running
`setup_remotes` twice yields the same final remote list (same names, URLs
and order) as running it once. -/
theorem setup_remotes_idempotent (init : List Remote)
    (h : CanonicalNamesConsistent init) (hu : (init.map Remote.url).Nodup) :
    setup_remotes (setup_remotes init) = setup_remotes init := by
  obtain ⟨L, hL, hclean⟩ := setup_loop_clean remotesTable [] init (get_remotes init)
    (by decide) (consistent_hold init h) (by simp) (by simp)
    (fun t ht _ => get_remotes_of_nodup_urls init hu t ht)
  have hs : setup_remotes init = remotesTable ++ L := by
    unfold setup_remotes
    simpa using hL
  have hcleanName : ∀ t ∈ L, t.name ∉ remotesTable.map Remote.name :=
    fun t ht => by simpa using (hclean t ht).1
  have hcleanUrl : ∀ t ∈ L, t.url ∉ remotesTable.map Remote.url :=
    fun t ht => by simpa using (hclean t ht).2
  have hself : ∀ c ∈ remotesTable, ∀ old,
      get_remotes (remotesTable ++ L) c.url = some old → old = c.name := by
    intro c hc old hold
    have hfront := get_remotes_front L c hc hcleanUrl
    rw [hfront] at hold
    injection hold with h'
    exact h'.symm
  have hid := setup_loop_id remotesTable [] L (get_remotes (remotesTable ++ L))
    (by decide) hself (fun t ht => by simpa using hcleanName t ht)
  rw [hs]
  unfold setup_remotes
  simpa using hid

/-- Witness for `setup_remotes_idempotent`: a registry holding the canonical
redirect URL under a developer-chosen name satisfies both side conditions,
and reconciling it twice equals reconciling it once. -/
theorem setup_remotes_idempotent_witness :
    (CanonicalNamesConsistent
        [Remote.mk "personal" (DL_ARTIFACTORY ++ "/api/conan/conan-redirect")] ∧
      (([Remote.mk "personal" (DL_ARTIFACTORY ++ "/api/conan/conan-redirect")]).map
        Remote.url).Nodup) ∧
    setup_remotes (setup_remotes
        [Remote.mk "personal" (DL_ARTIFACTORY ++ "/api/conan/conan-redirect")]) =
      setup_remotes [Remote.mk "personal" (DL_ARTIFACTORY ++ "/api/conan/conan-redirect")] :=
  ⟨⟨by unfold CanonicalNamesConsistent; decide, by decide⟩,
   setup_remotes_idempotent _ (by unfold CanonicalNamesConsistent; decide) (by decide)⟩

/-! ## C4: username selection -/

/-- C4 (confirmed): `package_username` returns the fixed stable identity
`datalogics` exactly when the current branch matches the release-branch
regular expression `dl/stable/.*`, and the local OS user name otherwise. -/
theorem package_username_spec (branch : Option String) (osUser : String) :
    package_username branch osUser =
      if branchIsStable branch then STABLE_USERNAME else osUser := by
  cases branch with
  | none => rfl
  | some b =>
    by_cases hb : branchMatchesStablePattern b = true
    · have hne : b ≠ "" := by
        intro h
        rw [h] at hb
        exact absurd hb (by decide)
      simp [package_username, branchIsStable, hb, hne]
    · simp [package_username, branchIsStable, hb]

/-! ## C10: build task aborts when the generator is unknown -/

/-- C10 (counterexample): with the cache file absent, `cmake_generator` does
not return `None`: the `open` call raises `FileNotFoundError` first, so the
claimed failure mechanism (return `None`, then the substring membership test
raises) is wrong for the absent-file case; the `build` task still aborts,
with the file error, before running any build command. -/
theorem build_C10_cex :
    cmake_generator none ≠ .ok none ∧
    build none true (some "Debug") true 4 = (some (.file .fileNotFound), []) := by
  refine ⟨?_, rfl⟩
  intro h
  simp [cmake_generator] at h

/-- C10 (amended): when `build` is invoked with parallel enabled, an absent
cache file aborts the task with the `FileNotFoundError` raised by `open`
(before any build command), while a present cache file containing no
`CMAKE_GENERATOR:INTERNAL=` line makes `cmake_generator` return `None` and
the substring membership test on the generator raise `TypeError`, again
before any build command is run. -/
theorem build_aborts_without_generator (multiCache : Bool) (config : Option String) (cpu : Nat) :
    build none multiCache config true cpu = (some (.file .fileNotFound), []) ∧
    ∀ lines, (∀ l ∈ lines, ¬ (strStartsWith (pyStrip l) "CMAKE_GENERATOR:INTERNAL=" = true)) →
      cmake_generator (some lines) = .ok none ∧
      build (some lines) multiCache config true cpu = (some .typeErrorNoneGenerator, []) := by
  refine ⟨rfl, ?_⟩
  intro lines hl
  have hfg : findGenerator lines = none := by
    induction lines with
    | nil => rfl
    | cons l ls ih =>
      unfold findGenerator
      rw [if_neg (hl l (by simp))]
      exact ih (fun x hx => hl x (List.mem_cons_of_mem _ hx))
  constructor
  · simp [cmake_generator, hfg]
  · simp [build, cmake_generator, hfg]

/-- Witness for `build_aborts_without_generator` at a concrete cache file with
no generator line. -/
theorem build_aborts_without_generator_witness :
    (∀ l ∈ (["CMAKE_BUILD_TYPE:STRING=Debug"] : List String),
      ¬ (strStartsWith (pyStrip l) "CMAKE_GENERATOR:INTERNAL=" = true)) ∧
    cmake_generator (some ["CMAKE_BUILD_TYPE:STRING=Debug"]) = .ok none ∧
    build (some ["CMAKE_BUILD_TYPE:STRING=Debug"]) true (some "Debug") true 4 =
      (some .typeErrorNoneGenerator, []) :=
  ⟨by decide,
   ((build_aborts_without_generator true (some "Debug") 4).2
     ["CMAKE_BUILD_TYPE:STRING=Debug"] (by decide)).1,
   ((build_aborts_without_generator true (some "Debug") 4).2
     ["CMAKE_BUILD_TYPE:STRING=Debug"] (by decide)).2⟩

/-! ## Balanced-trace lemmas -/

theorem balanced_append {a b : List Ev} (ha : Balanced a) (hb : Balanced b) :
    Balanced (a ++ b) := by
  induction ha with
  | nil => exact hb
  | neutral e t hn _ ih => exact Balanced.neutral e _ hn ih
  | wrap id inner rest hi _ _ ihr =>
    have hshape : (Ev.acquireTmp id :: inner ++ Ev.releaseTmp id :: rest) ++ b
        = Ev.acquireTmp id :: inner ++ Ev.releaseTmp id :: (rest ++ b) := by simp
    rw [hshape]
    exact Balanced.wrap id inner (rest ++ b) hi ihr

theorem balanced_of_neutral {l : List Ev} (h : ∀ e ∈ l, isTmpEv e = false) : Balanced l := by
  induction l with
  | nil => exact Balanced.nil
  | cons e t ih =>
    exact Balanced.neutral e t (h e (by simp)) (ih (fun x hx => h x (by simp [hx])))

theorem balanced_withTempDir (id : Nat) (body : Res) (h : Balanced body.2) :
    Balanced (withTempDir id body).2 :=
  Balanced.wrap id body.2 [] h Balanced.nil

theorem balanced_seqRes {a b : Res} (ha : Balanced a.2) (hb : Balanced b.2) :
    Balanced (seqRes a b).2 := by
  unfold seqRes
  cases h : a.1 with
  | none => simp only [h]; exact balanced_append ha hb
  | some e => simp only [h]; exact ha

theorem balanced_redirect {present : Bool} {body : Res} (h : Balanced body.2) :
    Balanced (conan_redirect_removed present body).2 := by
  have hpre : Balanced (if present then [Ev.removeRemote REDIRECT_REMOTE] else []) := by
    cases present
    · exact Balanced.nil
    · exact balanced_of_neutral (by decide)
  unfold conan_redirect_removed
  cases hb : body.1 with
  | none =>
    simp only [hb]
    exact balanced_append (balanced_append hpre h) (balanced_of_neutral (by decide))
  | some e =>
    simp only [hb]
    exact balanced_append hpre h

theorem balanced_installLoop (f : Nat → Option Unit) (items : List Nat) :
    Balanced (installLoop f items).2 := by
  induction items with
  | nil => exact Balanced.nil
  | cons i is ih =>
    exact balanced_seqRes
      (balanced_withTempDir _ _ (Balanced.neutral (Ev.install i) [] rfl Balanced.nil)) ih

theorem balanced_packageLoop (g : Nat → Option Unit) (items : List Nat) :
    Balanced (packageLoop g items).2 := by
  induction items with
  | nil => exact Balanced.nil
  | cons i is ih =>
    exact balanced_seqRes
      (balanced_withTempDir _ _ (Balanced.neutral (Ev.installRef i) [] rfl Balanced.nil)) ih

/-- C8 (confirmed): every temporary directory acquired for the isolated
package-manager home, for install staging in `install_all_configurations`,
or for the per-build installs of `package`, is released within its own block
of the trace, for every combination of install outcomes — including the ones
that raise (`with tempfile.TemporaryDirectory()` releases on the exceptional
path too); no temporary directory outlives its scope. -/
theorem temp_dirs_balanced (present : Bool) (f g : Nat → Option Unit)
    (items pitems : List Nat) (osUser : String) (rr : List Ref) (deps : List Dep) :
    Balanced (copy_dependencies present f items osUser rr deps).2 ∧
    Balanced (package g pitems).2 := by
  constructor
  · unfold copy_dependencies temporary_user_home_api
    apply balanced_withTempDir
    apply balanced_seqRes
    · exact balanced_of_neutral (by decide)
    · apply balanced_seqRes
      · exact balanced_redirect (balanced_installLoop f items)
      · refine balanced_of_neutral ?_
        intro e he
        obtain ⟨o, _, rfl⟩ := List.mem_map.mp he
        rfl
  · exact balanced_seqRes (balanced_packageLoop g pitems) (balanced_of_neutral (by decide))

/-- C9 (confirmed): if the body of `conan_redirect_removed` raises, the
context manager does not append the re-add of the redirect remote (the
`yield` is not wrapped in try/finally), so the trace is exactly the optional
removal followed by the body's events; on normal exit the re-add is appended
unconditionally, even when the remote was not present on entry. -/
theorem conan_redirect_removed_spec (present : Bool) (body : Res) :
    (∀ e, body.1 = some e →
      (conan_redirect_removed present body).2 =
        (if present then [Ev.removeRemote REDIRECT_REMOTE] else []) ++ body.2 ∧
      (Ev.addRemote REDIRECT_REMOTE ∉ body.2 →
        Ev.addRemote REDIRECT_REMOTE ∉ (conan_redirect_removed present body).2)) ∧
    (body.1 = none →
      (conan_redirect_removed present body).2 =
        (if present then [Ev.removeRemote REDIRECT_REMOTE] else []) ++ body.2
          ++ [Ev.addRemote REDIRECT_REMOTE]) := by
  constructor
  · intro e he
    constructor
    · unfold conan_redirect_removed
      simp only [he]
    · intro hnb hmem
      unfold conan_redirect_removed at hmem
      simp only [he] at hmem
      rw [List.mem_append] at hmem
      rcases hmem with h | h
      · cases present <;> simp at h
      · exact hnb h
  · intro he
    unfold conan_redirect_removed
    simp only [he]

/-- Witness for `conan_redirect_removed_spec`: a body that raises after one
install event, with the redirect remote absent on entry. -/
theorem conan_redirect_removed_spec_witness :
    ((some () : Option Unit) = some () ∧ Ev.addRemote REDIRECT_REMOTE ∉ [Ev.install 0]) ∧
    (conan_redirect_removed false ((some (), [Ev.install 0]) : Res)).2 =
      (if false then [Ev.removeRemote REDIRECT_REMOTE] else []) ++ [Ev.install 0] ∧
    Ev.addRemote REDIRECT_REMOTE ∉
      (conan_redirect_removed false ((some (), [Ev.install 0]) : Res)).2 :=
  ⟨⟨rfl, by decide⟩,
   ((conan_redirect_removed_spec false ((some (), [Ev.install 0]) : Res)).1 () rfl).1,
   ((conan_redirect_removed_spec false ((some (), [Ev.install 0]) : Res)).1 () rfl).2
     (by decide)⟩

/-- When every install succeeds, the install loop emits exactly the
per-configuration bracketed install events. -/
theorem installLoop_ok (f : Nat → Option Unit) (hf : ∀ i, f i = none) :
    ∀ items, installLoop f items = (none, installEvents items) := by
  intro items
  induction items with
  | nil => rfl
  | cons i is ih =>
    unfold installLoop
    rw [ih]
    simp [seqRes, withTempDir, hf i, installEvents]

/-- C6 (counterexample): in a concrete successful run (one configuration,
one promotable dependency, redirect remote present), the re-add of the
redirect remote (index 8 of the trace) happens before the first promotion
operation (index 9), contradicting the claimed order in which the redirect
remote is re-added at the end, after the uploads and alias creation. -/
theorem copy_dependencies_C6_cex :
    ((copy_dependencies true (fun _ => none) [0] "kam" []
        [Dep.mk "zlib" "1.0" "conan" "stable" false]).2.get? 8 =
      some (Ev.addRemote REDIRECT_REMOTE)) ∧
    ((copy_dependencies true (fun _ => none) [0] "kam" []
        [Dep.mk "zlib" "1.0" "conan" "stable" false]).2.get? 9 =
      some (Ev.dep (Op.copy (Ref.mk "zlib" "1.0" "conan" "stable") "datalogics/stable"))) ∧
    (8 : Nat) < 9 := by
  decide

/-- C6 (amended): when every install succeeds, the `copy_dependencies` trace
is exactly: acquire the temporary home, copy the user-home directory, check
long paths, strip all remote refs, remove the redirect remote (when
present), install every configuration in its own temporary folder, re-add
the redirect remote immediately after the installs, and only then perform
the upload/alias operations on the stable non-local dependencies, finally
releasing the temporary home — the re-add precedes the uploads rather than
coming at the end. -/
theorem copy_dependencies_order (present : Bool) (f : Nat → Option Unit)
    (items : List Nat) (osUser : String) (rr : List Ref) (deps : List Dep)
    (hf : ∀ i, f i = none) :
    (copy_dependencies present f items osUser rr deps).2 =
      Ev.acquireTmp 0 :: ([Ev.copyUserHome, Ev.checkLongPaths, Ev.removeRemoteRefs]
        ++ ((if present then [Ev.removeRemote REDIRECT_REMOTE] else [])
          ++ installEvents items ++ [Ev.addRemote REDIRECT_REMOTE])
        ++ (upload_dependencies_internal osUser rr deps).map Ev.dep
        ++ [Ev.releaseTmp 0]) := by
  unfold copy_dependencies temporary_user_home_api install_all_configurations
  rw [installLoop_ok f hf items]
  unfold conan_redirect_removed upload_dependencies_res seqRes withTempDir
  simp

/-- Witness for `copy_dependencies_order`: two successful configurations and
one promotable dependency, redirect remote absent on entry. -/
theorem copy_dependencies_order_witness :
    (∀ i : Nat, (fun _ : Nat => (none : Option Unit)) i = none) ∧
    (copy_dependencies false (fun _ => none) [0, 1] "dev" []
        [Dep.mk "libpng" "1.6" "bincrafters" "stable" false]).2 =
      Ev.acquireTmp 0 :: ([Ev.copyUserHome, Ev.checkLongPaths, Ev.removeRemoteRefs]
        ++ ((if false then [Ev.removeRemote REDIRECT_REMOTE] else [])
          ++ installEvents [0, 1] ++ [Ev.addRemote REDIRECT_REMOTE])
        ++ (upload_dependencies_internal "dev" []
              [Dep.mk "libpng" "1.6" "bincrafters" "stable" false]).map Ev.dep
        ++ [Ev.releaseTmp 0]) :=
  ⟨fun _ => rfl,
   copy_dependencies_order false (fun _ => none) [0, 1] "dev" []
     [Dep.mk "libpng" "1.6" "bincrafters" "stable" false] (fun _ => rfl)⟩

/-! ## C1: dependency promotion -/

theorem promoteLoop_infix (rr : List Ref) (ds : List Dep) (d : Dep) (hd : d ∈ ds)
    (ha : d.isAlias = false) :
    ∃ pre post, promoteLoop rr ds = pre ++ promoteOps rr d ++ post := by
  induction ds with
  | nil => cases hd
  | cons x ds ih =>
    rcases List.mem_cons.mp hd with rfl | hd'
    · exact ⟨[], promoteLoop rr ds, by simp [promoteLoop, ha]⟩
    · obtain ⟨pre, post, h⟩ := ih hd'
      exact ⟨(if x.isAlias then [] else promoteOps rr x) ++ pre, post,
        by simp [promoteLoop, h]⟩

/-- C1 (counterexample): an alias dependency on channel `stable` whose user
is neither `datalogics` nor the local OS user is skipped entirely by
`upload_dependencies_internal` (the `hasattr(conanfile, 'alias')` guard):
no copy under the stable identity — nor any other operation — is issued for
it, contradicting the claim, which quantifies over all such dependencies. -/
theorem upload_dependencies_C1_cex :
    (Dep.mk "zlib" "1.2.11" "conan" "stable" true) ∈
      [Dep.mk "zlib" "1.2.11" "conan" "stable" true] ∧
    "conan" ≠ STABLE_USERNAME ∧ "conan" ≠ "kam" ∧
    upload_dependencies_internal "kam" [] [Dep.mk "zlib" "1.2.11" "conan" "stable" true]
      = [] := by
  decide

/-- C1 (amended): for every resolved dependency whose channel is `stable`,
whose user is neither the stable identity `datalogics` nor the local OS
user, and which is not itself an alias package, `upload_dependencies_internal`
issues — contiguously and in this order — the copy of the package under the
stable identity, the upload of the new reference to the `conan-ext` remote,
(when the original reference had a cached remote, its redirection), the
removal of the local cache copy of the original reference, the export of the
alias redirecting the original reference to the new `datalogics`-owned
reference, and its upload to the redirect remote. -/
theorem upload_dependencies_promotes (osUser : String) (rr : List Ref)
    (deps : List Dep) (d : Dep) (hd : d ∈ deps)
    (h1 : d.user ≠ STABLE_USERNAME) (h2 : d.user ≠ osUser)
    (h3 : d.channel = "stable") (h4 : d.isAlias = false) :
    ∃ pre post, upload_dependencies_internal osUser rr deps =
      pre ++ promoteOps rr d ++ post := by
  apply promoteLoop_infix rr _ d ?_ h4
  unfold stable_non_local_dependencies
  apply List.mem_filter.mpr
  refine ⟨hd, ?_⟩
  simp [h1, h2, h3]

/-- Witness for `upload_dependencies_promotes`: one concrete stable
bincrafters dependency whose reference also has a cached remote ref. -/
theorem upload_dependencies_promotes_witness :
    ((Dep.mk "leptonica" "1.76.0" "bincrafters" "stable" false) ∈
        [Dep.mk "leptonica" "1.76.0" "bincrafters" "stable" false] ∧
      "bincrafters" ≠ STABLE_USERNAME ∧ "bincrafters" ≠ "dev" ∧
      "stable" = "stable" ∧ false = false) ∧
    (∃ pre post, upload_dependencies_internal "dev"
        [Ref.mk "leptonica" "1.76.0" "bincrafters" "stable"]
        [Dep.mk "leptonica" "1.76.0" "bincrafters" "stable" false] =
      pre ++ promoteOps [Ref.mk "leptonica" "1.76.0" "bincrafters" "stable"]
        (Dep.mk "leptonica" "1.76.0" "bincrafters" "stable" false) ++ post) :=
  ⟨⟨by decide, by decide, by decide, rfl, rfl⟩,
   upload_dependencies_promotes "dev" _ _ _ (by decide) (by decide) (by decide) rfl rfl⟩

/-! ## C5: login behavior -/

/-- Once a token is held, the rest of the loop just authenticates every
remaining token-less Artifactory remote with it. -/
theorem loginLoop_some (cfg : LoginCfg) (rs : List Remote) (t : String) :
    loginLoop cfg rs (some t) =
      (none, (rs.filter (needsToken cfg)).map
        (fun r => .auth (resolvedUser cfg) t r.name)) := by
  induction rs with
  | nil => rfl
  | cons r rs ih =>
    by_cases h : needsToken cfg r
    · simp [loginLoop, h, ih, List.filter_cons]
    · simp [loginLoop, h, ih, List.filter_cons]

/-- Full characterization of a `login` run: nothing happens when every
Artifactory remote has a cached token; otherwise the prompt and one HTTP
call happen, and on success each token-less Artifactory remote is
authenticated with the one token obtained. -/
theorem loginLoop_none (cfg : LoginCfg) (rs : List Remote) :
    loginLoop cfg rs none =
      if (rs.filter (needsToken cfg)).isEmpty then (none, [])
      else
        match cfg.http (resolvedUser cfg) cfg.promptPass with
        | .error _ => (some (), [.promptCredentials, .httpCall])
        | .ok t => (none, .promptCredentials :: .httpCall ::
            (rs.filter (needsToken cfg)).map
              (fun r => .auth (resolvedUser cfg) t r.name)) := by
  induction rs with
  | nil => rfl
  | cons r rs ih =>
    by_cases h : needsToken cfg r
    · cases hh : cfg.http (resolvedUser cfg) cfg.promptPass with
      | error e => simp [loginLoop, h, hh, List.filter_cons]
      | ok t => simp [loginLoop, h, hh, List.filter_cons, loginLoop_some]
    · simp [loginLoop, h, ih, List.filter_cons]


/-- C5 (confirmed): during `login` — (i) if every Artifactory remote has a
cached token, nothing at all happens (no prompt, no HTTP call, no
authentication); (ii) a remote that is outside the Artifactory host or has a
cached token for its URL is never authenticated; (iii) the credential prompt
happens at most once per invocation and (iv) so does the HTTP token
exchange; (v) when the exchange succeeds, every token-less Artifactory
remote is authenticated, each with the same single token under the single
resolved username, and nothing else is ever authenticated.  The hypothesis
`hn` reflects that Conan's remote registry is keyed by name. -/
theorem login_spec (cfg : LoginCfg) (hn : (cfg.remotes.map Remote.name).Nodup) :
    ((cfg.remotes.filter (needsToken cfg)).isEmpty = true → (login cfg).2 = []) ∧
    (∀ r ∈ cfg.remotes, needsToken cfg r = false →
      ∀ u t, LEv.auth u t r.name ∉ (login cfg).2) ∧
    (login cfg).2.count .promptCredentials ≤ 1 ∧
    (login cfg).2.count .httpCall ≤ 1 ∧
    (∀ t0, cfg.http (resolvedUser cfg) cfg.promptPass = .ok t0 →
      (∀ r ∈ cfg.remotes, needsToken cfg r = true →
        LEv.auth (resolvedUser cfg) t0 r.name ∈ (login cfg).2) ∧
      (∀ u t n, LEv.auth u t n ∈ (login cfg).2 → u = resolvedUser cfg ∧ t = t0)) := by
  have hchar := loginLoop_none cfg cfg.remotes
  by_cases hemp : (cfg.remotes.filter (needsToken cfg)).isEmpty = true
  · rw [if_pos hemp] at hchar
    refine ⟨fun _ => by unfold login; rw [hchar], ?_, ?_, ?_, ?_⟩
    · intro r _ _ u t hmem
      unfold login at hmem
      rw [hchar] at hmem
      simp at hmem
    · unfold login; rw [hchar]; simp
    · unfold login; rw [hchar]; simp
    · intro t0 _
      constructor
      · intro r hr hneed
        exfalso
        have hmem : r ∈ cfg.remotes.filter (needsToken cfg) :=
          List.mem_filter.mpr ⟨hr, hneed⟩
        rw [List.isEmpty_iff] at hemp
        rw [hemp] at hmem
        cases hmem
      · intro u t n hmem
        unfold login at hmem
        rw [hchar] at hmem
        simp at hmem
  · rw [if_neg hemp] at hchar
    cases hh : cfg.http (resolvedUser cfg) cfg.promptPass with
    | error e =>
      simp only [hh] at hchar
      refine ⟨fun hemp' => absurd hemp' hemp, ?_, ?_, ?_, ?_⟩
      · intro r _ _ u t hmem
        unfold login at hmem
        rw [hchar] at hmem
        simp at hmem
      · unfold login; rw [hchar]; decide
      · unfold login; rw [hchar]; decide
      · intro t0 h0
        cases h0
    | ok t' =>
      simp only [hh] at hchar
      have hmap0 : ∀ e : LEv, (∀ u t n, e ≠ LEv.auth u t n) →
          ((cfg.remotes.filter (needsToken cfg)).map
            (fun r => LEv.auth (resolvedUser cfg) t' r.name)).count e = 0 := by
        intro e he
        apply List.count_eq_zero.mpr
        intro hmem
        obtain ⟨r', _, heq⟩ := List.mem_map.mp hmem
        exact he (resolvedUser cfg) t' r'.name heq.symm
      refine ⟨fun hemp' => absurd hemp' hemp, ?_, ?_, ?_, ?_⟩
      · intro r hr hneed u t hmem
        unfold login at hmem
        rw [hchar] at hmem
        simp only [List.mem_cons] at hmem
        rcases hmem with h | h | h
        · cases h
        · cases h
        · obtain ⟨r', hr', heq⟩ := List.mem_map.mp h
          injection heq with h1 h2 h3
          have hr'mem := List.mem_filter.mp hr'
          have hrr : r' = r := List.inj_on_of_nodup_map hn hr'mem.1 hr h3
          have hbad := hr'mem.2
          rw [hrr, hneed] at hbad
          cases hbad
      · unfold login
        rw [hchar]
        have h0 := hmap0 LEv.promptCredentials (fun u t n h => by cases h)
        simp [List.count_cons, h0]
      · unfold login
        rw [hchar]
        have h0 := hmap0 LEv.httpCall (fun u t n h => by cases h)
        simp [List.count_cons, h0]
      · intro t0 h0
        injection h0 with h0'
        constructor
        · intro r hr hneed
          unfold login
          rw [hchar]
          simp only [List.mem_cons]
          right; right
          rw [← h0']
          exact List.mem_map.mpr ⟨r, List.mem_filter.mpr ⟨hr, hneed⟩, rfl⟩
        · intro u t n hmem
          unfold login at hmem
          rw [hchar] at hmem
          simp only [List.mem_cons] at hmem
          rcases hmem with h | h | h
          · cases h
          · cases h
          · obtain ⟨r', _, heq⟩ := List.mem_map.mp h
            injection heq with h1 h2 h3
            exact ⟨h1.symm, by rw [← h2, h0']⟩

/-- Witness for `login_spec` at `loginCfgTwo`. -/
theorem login_spec_witness :
    (loginCfgTwo.remotes.map Remote.name).Nodup ∧
    (((loginCfgTwo.remotes.filter (needsToken loginCfgTwo)).isEmpty = true →
        (login loginCfgTwo).2 = []) ∧
      (∀ r ∈ loginCfgTwo.remotes, needsToken loginCfgTwo r = false →
        ∀ u t, LEv.auth u t r.name ∉ (login loginCfgTwo).2) ∧
      (login loginCfgTwo).2.count .promptCredentials ≤ 1 ∧
      (login loginCfgTwo).2.count .httpCall ≤ 1 ∧
      (∀ t0, loginCfgTwo.http (resolvedUser loginCfgTwo) loginCfgTwo.promptPass = .ok t0 →
        (∀ r ∈ loginCfgTwo.remotes, needsToken loginCfgTwo r = true →
          LEv.auth (resolvedUser loginCfgTwo) t0 r.name ∈ (login loginCfgTwo).2) ∧
        (∀ u t n, LEv.auth u t n ∈ (login loginCfgTwo).2 →
          u = resolvedUser loginCfgTwo ∧ t = t0))) :=
  ⟨by decide, login_spec loginCfgTwo (by decide)⟩

/-! ## C7: error propagation -/

/-- C7 (confirmed): errors are propagated, not recovered — a failed HTTP
response during login makes `raise_for_status` abort the task right after
the prompt and the HTTP call (no remote is authenticated); a missing build
cache file propagates out of `cmake_generator`; a missing registry key
propagates out of `check_long_paths`; and the single exception is a missing
`LongPathsEnabled` registry value, which is treated as the feature being
disabled: the warnings are printed and execution continues with no error. -/
theorem error_propagation_spec :
    (∀ cfg : LoginCfg, ∀ e : Unit,
      cfg.http (resolvedUser cfg) cfg.promptPass = .error e →
      (cfg.remotes.filter (needsToken cfg)).isEmpty = false →
      login cfg = (some (), [.promptCredentials, .httpCall])) ∧
    cmake_generator none = .error .fileNotFound ∧
    check_long_paths .keyMissing = (some .keyMissing, []) ∧
    check_long_paths .valueMissing = (none, longPathWarnings) := by
  refine ⟨?_, rfl, rfl, rfl⟩
  intro cfg e hh hne
  unfold login
  rw [loginLoop_none cfg cfg.remotes, if_neg (by simp [hne]), hh]

/-- Witness for `error_propagation_spec` at `loginCfgFail`. -/
theorem error_propagation_spec_witness :
    (loginCfgFail.http (resolvedUser loginCfgFail) loginCfgFail.promptPass = .error () ∧
      (loginCfgFail.remotes.filter (needsToken loginCfgFail)).isEmpty = false) ∧
    login loginCfgFail = (some (), [.promptCredentials, .httpCall]) :=
  ⟨⟨rfl, by decide⟩,
   error_propagation_spec.1 loginCfgFail () rfl (by decide)⟩

end Tasks
